import Mathlib

/-!
# Verification of `FINE/spagat/RE_representation.py`

Shallow embedding of the per-region renewable-energy representation engine:

* a grid cell carries the `rasters` membership flag for the region under
  consideration, a capacity value and a capacity-factor time series.
  Missing values (NaN in the numeric arrays) are modelled as `none`;
  present values are exact rationals.
* the filtering pipeline of `_simply_aggregate_RE_technology` /
  `_cluster_RE_technology` (steps 2–2b of the source): mask by
  `rasters == 1`, mask by `capacity > 0`, then `dropna` on each array.
* simple aggregation (step 2c–2d): power curve, capacity total,
  capacity-factor total with NaN on division by zero.
* cluster-mode aggregation (steps 2d–2e of `_cluster_RE_technology`):
  per-label boolean masking of the capacity and power arrays, with the
  result arrays pre-initialised to zero.
* the scheduler-level dispatch and `xr.merge` of per-region fragments
  (`represent_RE_technology`, step after rasterisation).
-/

namespace FineRE

/-- One grid cell after stacking the two spatial axes into the `x_y` axis,
as seen by one region's task: `raster` is the cell's `rasters` entry for
this region (`rasters == 1`), `capacity` its capacity value and `capfac`
its capacity-factor series; `none` models a NaN entry. -/
structure Cell where
  raster : Bool
  capacity : Option ℚ
  capfac : List (Option ℚ)
deriving DecidableEq

/-- Model of `xarray`'s `.where(cond)`: keep the value where the condition holds,
NaN elsewhere.  Used for `.where(regional_ds.rasters == 1)`. -/
def rasterMask (r : Bool) (v : Option ℚ) : Option ℚ :=
  if r then v else none

/-- numpy's `capacity > 0` test: `False` on NaN. -/
def posTest : Option ℚ → Bool
  | some q => decide (0 < q)
  | none => false

/-- The cell's capacity after `where(rasters == 1)` (step 2 of the source). -/
def rasterCapacity (c : Cell) : Option ℚ :=
  rasterMask c.raster c.capacity

/-- The cell's capacity-factor series after `where(rasters == 1)`. -/
def rasterCapfac (c : Cell) : List (Option ℚ) :=
  c.capfac.map (rasterMask c.raster)

/-- The cell's capacity after
`regional_capacity_da.where(regional_capacity_da > 0)` (step 2b (ii)). -/
def filteredCapacity (c : Cell) : Option ℚ :=
  if posTest (rasterCapacity c) then rasterCapacity c else none

/-- The cell's capacity-factor series after
`regional_capfac_da.where(regional_capacity_da > 0)` (step 2b (ii)):
the positivity condition broadcasts over the time axis. -/
def filteredCapfac (c : Cell) : List (Option ℚ) :=
  if posTest (rasterCapacity c) then rasterCapfac c else c.capfac.map fun _ => none

/-- All entries of a series are present; returns the NaN-free series.
`xarray`'s `dropna(dim='x_y')` keeps exactly the cells on which this is
`some`. -/
def seqOption : List (Option ℚ) → Option (List ℚ)
  | [] => some []
  | none :: _ => none
  | some q :: rest => (seqOption rest).map (q :: ·)

/-- The capacity array after `regional_capacity_da.dropna(dim='x_y')`:
the surviving capacities, in cell order. -/
def keptCapacities (cells : List Cell) : List ℚ :=
  cells.filterMap filteredCapacity

/-- The capacity-factor array after `regional_capfac_da.dropna(dim='x_y')`:
the surviving NaN-free series, in cell order.  A cell survives iff its
whole masked series is NaN-free. -/
def keptCapfacs (cells : List Cell) : List (List ℚ) :=
  cells.filterMap fun c => seqOption (filteredCapfac c)

/-- The cells present in BOTH post-`dropna` arrays, with their capacity and
series.  `regional_power_da = regional_capacity_da * regional_capfac_da`
aligns the two arrays on the shared `x_y` coordinates (xarray inner join),
so the power curve lives exactly on these cells. -/
def alignOne (c : Cell) : Option (ℚ × List ℚ) :=
  match filteredCapacity c, seqOption (filteredCapfac c) with
  | some v, some fs => some (v, fs)
  | _, _ => none

/-- See `alignOne`. -/
def alignedCells (cells : List Cell) : List (ℚ × List ℚ) :=
  cells.filterMap alignOne

/-- Source: `capacity_total = regional_capacity_da.sum(dim='x_y')` (step 2d). -/
def capacityTotal (cells : List Cell) : ℚ :=
  (keptCapacities cells).sum

/-- Source: `power_total = regional_power_da.sum(dim='x_y')` at time step `t`. -/
def powerTotal (cells : List Cell) (t : ℕ) : ℚ :=
  ((alignedCells cells).map fun p => p.1 * p.2.getD t 0).sum

/-- Float division with NaN (`none`) on a zero denominator: the only
zero-denominator division reachable in the source is `0.0/0.0 = NaN`. -/
def rdiv (x y : ℚ) : Option ℚ :=
  if y = 0 then none else some (x / y)

/-- Source: `capfac_total = power_total/capacity_total`: the time series the
Simple Aggregator stores for the region at time step `t`. -/
def simpleCapfac (cells : List Cell) (t : ℕ) : Option ℚ :=
  rdiv (powerTotal cells t) (capacityTotal cells)

/-- The claim's "filtered cell set": cells with `rasters == 1`, strictly
positive capacity and no missing value anywhere (capacity or
capacity-factor series).  These are exactly the cells of `alignedCells`. -/
def specFilteredCapacitySum (cells : List Cell) : ℚ :=
  ((alignedCells cells).map Prod.fst).sum

/-- Well-formed region data: every capacity-factor series has length `T`
(the number of time steps of the dataset). -/
def WellFormed (T : ℕ) (cells : List Cell) : Prop :=
  ∀ c ∈ cells, c.capfac.length = T

/-- No positive-capacity cell of the region has a missing capacity-factor
entry (the spec's §3 invariant that capacity factors are meaningful
wherever capacity is positive). -/
def CleanCapfac (cells : List Cell) : Prop :=
  ∀ c ∈ cells, filteredCapacity c ≠ none → seqOption (filteredCapfac c) ≠ none

/-! ## Cluster mode (`_cluster_RE_technology`, steps 2d–2e)

The clusterer (`AgglomerativeClustering(...).fit(regional_capfac_da)`) is
external library code; its output enters the aggregation only through
`labels_`, one natural-number label per surviving cell, which we take as a
parameter.  The per-cluster aggregation masks the capacity and power
arrays with `labels == i` for `i` below the number of distinct labels
(`np.unique(labels_).shape[0]`), writing into result arrays
pre-initialised with zeros of width `n_timeSeries_perRegion`. -/

/-- The `regional_power_da`-style pairs masked by `labels == i`: the cells of
cluster `i`, as (capacity, series) pairs in cell order. -/
def clusterPairs (ps : List (ℚ × List ℚ)) (labels : List ℕ) (i : ℕ) :
    List (ℚ × List ℚ) :=
  ((ps.zip labels).filter fun pl => pl.2 == i).map Prod.fst

/-- Source: `cluster_capacity_total = regional_capacity_da[labels == i].sum(dim='x_y')`. -/
def clusterCapacityTotal (ps : List (ℚ × List ℚ)) (labels : List ℕ) (i : ℕ) : ℚ :=
  ((clusterPairs ps labels i).map Prod.fst).sum

/-- Source: `cluster_power_total = regional_power_da[labels == i].sum(dim='x_y')`
at time step `t`. -/
def clusterPowerTotal (ps : List (ℚ × List ℚ)) (labels : List ℕ) (i t : ℕ) : ℚ :=
  ((clusterPairs ps labels i).map fun p => p.1 * p.2.getD t 0).sum

/-- Source: `np.unique(agglomerative_model.labels_).shape[0]`: the number of
distinct labels, which bounds the aggregation loop. -/
def nUniqueLabels (labels : List ℕ) : ℕ :=
  labels.dedup.length

/-- Entry `i` of `represented_capacities` for the region: written by the
loop iteration `i` when `i` is below the number of distinct labels,
otherwise left at its zero initialisation. -/
def clusterSlotCapacity (ps : List (ℚ × List ℚ)) (labels : List ℕ) (i : ℕ) : ℚ :=
  if i < nUniqueLabels labels then clusterCapacityTotal ps labels i else 0

/-- Entry `(t, i)` of `represented_timeSeries` for the region:
`cluster_power_total/cluster_capacity_total` (NaN on a zero denominator)
when the loop reaches slot `i`, otherwise the zero initialisation. -/
def clusterSlotCapfac (ps : List (ℚ × List ℚ)) (labels : List ℕ) (i t : ℕ) : Option ℚ :=
  if i < nUniqueLabels labels then
    rdiv (clusterPowerTotal ps labels i t) (clusterCapacityTotal ps labels i)
  else some 0

/-- The full `represented_capacities` row of the region: one entry per
`TS_id` slot `0 .. K-1`. -/
def repClusterCapacities (ps : List (ℚ × List ℚ)) (labels : List ℕ) (K : ℕ) :
    List ℚ :=
  (List.range K).map (clusterSlotCapacity ps labels)

/-! ## Scheduler level (`represent_RE_technology`) -/

/-- Which per-region worker function is submitted to the pool. -/
inductive RegionStrategy
  | simple
  | cluster
deriving DecidableEq

/-- The only branch in `represent_RE_technology`:
`_simply_aggregate_RE_technology` when `n_timeSeries_perRegion == 1`,
`_cluster_RE_technology` for every other value. -/
def regionStrategy (n_timeSeries_perRegion : ℤ) : RegionStrategy :=
  if n_timeSeries_perRegion = 1 then .simple else .cluster

/-- Whether `agg_cluster.fit` is reached for a region: the cluster worker
calls it unconditionally, and no code path compares
`n_timeSeries_perRegion` with the region's surviving cell count (the
second argument is never inspected). -/
def clusteringAttempted (n_timeSeries_perRegion : ℤ) (nSurvivingCells : ℕ) : Bool :=
  regionStrategy n_timeSeries_perRegion == RegionStrategy.cluster

/-- One region's completed result fragment: the per-region `xr.Dataset`
built in STEP 3 of either worker, keyed by its single `region_ids`
coordinate value.  The payload carries the represented capacity row and
time-series entries. -/
structure RegionFragment where
  capacities : List ℚ
  capfacs : List (List (Option ℚ))
deriving DecidableEq

/-- Model of `xr.merge(results)` keyed on the `region_ids` coordinate: the merged
dataset maps a region id to the payload of the fragment carrying it. -/
def mergeFragments (frags : List (String × RegionFragment)) :
    String → Option RegionFragment :=
  fun r => (frags.find? fun p => p.1 == r).map Prod.snd

/-- The `region_ids` coordinate of `xr.merge(results)`: the union of the
fragments' region coordinates, each id kept once. -/
def mergedRegionIds (fragmentRegions : List (List String)) : List String :=
  fragmentRegions.flatten.dedup

/-- The region ids of the final dataset: one fragment with a singleton
`region_ids` coordinate is produced per entry of
`rasterized_RE_ds['region_ids'].values`, and all fragments are merged. -/
def representedRegionIds (region_ids : List String) : List String :=
  mergedRegionIds (region_ids.map fun r => [r])

/-! ## Positions surviving each `dropna` (for the lockstep-filtering claim) -/

/-- The positions (along the stacked `x_y` axis) surviving the capacity
array's `dropna`. -/
def keptCapacityIndices (cells : List Cell) : List ℕ :=
  (cells.enum.filter fun p => (filteredCapacity p.2).isSome).map Prod.fst

/-- The positions surviving the capacity-factor array's `dropna`. -/
def keptCapfacIndices (cells : List Cell) : List ℕ :=
  (cells.enum.filter fun p => (seqOption (filteredCapfac p.2)).isSome).map Prod.fst

/-! ## Helper lemmas -/

theorem filteredCapacity_pos {c : Cell} {v : ℚ} (h : filteredCapacity c = some v) :
    0 < v := by
  unfold filteredCapacity at h
  by_cases hp : posTest (rasterCapacity c)
  · rw [if_pos hp] at h
    cases hr : rasterCapacity c with
    | none => rw [hr] at h; exact absurd h (by simp)
    | some q =>
      rw [hr] at h hp
      simp only [posTest, decide_eq_true_eq] at hp
      obtain rfl : q = v := by injection h
      exact hp
  · rw [if_neg hp] at h
    exact absurd h (by simp)

theorem alignOne_eq_some {c : Cell} {p : ℚ × List ℚ} (h : alignOne c = some p) :
    filteredCapacity c = some p.1 ∧ seqOption (filteredCapfac c) = some p.2 := by
  unfold alignOne at h
  cases hfc : filteredCapacity c with
  | none => rw [hfc] at h; exact absurd h (by simp)
  | some v =>
    cases hsq : seqOption (filteredCapfac c) with
    | none => rw [hfc, hsq] at h; exact absurd h (by simp)
    | some fs =>
      rw [hfc, hsq] at h
      obtain rfl : (v, fs) = p := by injection h
      exact ⟨rfl, rfl⟩

theorem alignedCells_pos {cells : List Cell} :
    ∀ p ∈ alignedCells cells, 0 < p.1 := by
  intro p hp
  obtain ⟨c, _, hc⟩ := List.mem_filterMap.mp hp
  exact filteredCapacity_pos (alignOne_eq_some hc).1

theorem keptCapacities_eq_aligned {cells : List Cell} (h : CleanCapfac cells) :
    keptCapacities cells = (alignedCells cells).map Prod.fst := by
  induction cells with
  | nil => rfl
  | cons c cs ih =>
    have hcs : CleanCapfac cs := fun d hd => h d (List.mem_cons_of_mem _ hd)
    have hc := h c (List.mem_cons_self _ _)
    show (c :: cs).filterMap filteredCapacity
        = ((c :: cs).filterMap alignOne).map Prod.fst
    rw [List.filterMap_cons, List.filterMap_cons]
    cases hfc : filteredCapacity c with
    | none =>
      have : alignOne c = none := by unfold alignOne; rw [hfc]
      rw [this]
      exact ih hcs
    | some v =>
      cases hsq : seqOption (filteredCapfac c) with
      | none => exact absurd hsq (hc (by rw [hfc]; exact Option.some_ne_none v))
      | some fs =>
        have : alignOne c = some (v, fs) := by unfold alignOne; rw [hfc, hsq]
        rw [this, List.map_cons]
        exact congrArg (v :: ·) (ih hcs)

theorem list_range_map_sum (n : ℕ) (f : ℕ → ℚ) :
    ((List.range n).map f).sum = ∑ i in Finset.range n, f i := by
  induction n with
  | zero => simp
  | succ n ih => simp [List.range_succ, Finset.sum_range_succ, ih]

theorem sum_filter_label {α : Type} (xs : List (α × ℕ)) (K : ℕ) (g : α → ℚ)
    (hmem : ∀ x ∈ xs, x.2 < K) :
    (∑ i in Finset.range K,
        ((xs.filter fun pl => pl.2 == i).map fun pl => g pl.1).sum)
      = (xs.map fun pl => g pl.1).sum := by
  induction xs with
  | nil => simp
  | cons x xs ih =>
    have hx : x.2 < K := hmem x (List.mem_cons_self _ _)
    have hxs : ∀ y ∈ xs, y.2 < K := fun y hy => hmem y (List.mem_cons_of_mem _ hy)
    have hsplit : ∀ i : ℕ,
        (((x :: xs).filter fun pl => pl.2 == i).map fun pl => g pl.1).sum
          = (if x.2 = i then g x.1 else 0)
            + ((xs.filter fun pl => pl.2 == i).map fun pl => g pl.1).sum := by
      intro i
      by_cases hxi : x.2 = i
      · simp [List.filter_cons, hxi]
      · simp [List.filter_cons, hxi]
    rw [Finset.sum_congr rfl fun i _ => hsplit i, Finset.sum_add_distrib, ih hxs]
    simp [Finset.sum_ite_eq, Finset.mem_range, hx]

theorem nUniqueLabels_eq {labels : List ℕ} {K : ℕ}
    (hmem : ∀ l ∈ labels, l < K) (hsurj : ∀ j < K, j ∈ labels) :
    nUniqueLabels labels = K := by
  have hnd := labels.nodup_dedup
  have hset : labels.dedup.toFinset = Finset.range K := by
    ext j
    simp only [List.mem_toFinset, List.mem_dedup, Finset.mem_range]
    exact ⟨hmem j, hsurj j⟩
  calc labels.dedup.length = labels.dedup.toFinset.card :=
        (List.toFinset_card_of_nodup hnd).symm
    _ = K := by rw [hset, Finset.card_range]

theorem exists_pair_of_mem {α : Type} {ps : List α} {labels : List ℕ}
    (hlen : labels.length = ps.length) {j : ℕ} (hj : j ∈ labels) :
    ∃ p, (p, j) ∈ ps.zip labels := by
  induction ps generalizing labels with
  | nil =>
    cases labels with
    | nil => exact absurd hj (by simp)
    | cons l ls => exact absurd hlen (by simp)
  | cons p ps ih =>
    cases labels with
    | nil => exact absurd hj (by simp)
    | cons l ls =>
      simp only [List.length_cons, Nat.succ_inj'] at hlen
      rcases List.mem_cons.mp hj with rfl | h
      · exact ⟨p, List.mem_cons_self _ _⟩
      · obtain ⟨q, hq⟩ := ih hlen h
        exact ⟨q, List.mem_cons_of_mem _ hq⟩

theorem mem_of_mem_clusterPairs {ps : List (ℚ × List ℚ)} {labels : List ℕ} {i : ℕ}
    {p : ℚ × List ℚ} (hp : p ∈ clusterPairs ps labels i) : p ∈ ps := by
  unfold clusterPairs at hp
  obtain ⟨pl, hpl, rfl⟩ := List.mem_map.mp hp
  obtain ⟨a, b⟩ := pl
  exact (List.mem_zip (List.mem_filter.mp hpl).1).1

theorem clusterPairs_ne_nil {ps : List (ℚ × List ℚ)} {labels : List ℕ} {j : ℕ}
    (hlen : labels.length = ps.length) (hj : j ∈ labels) :
    clusterPairs ps labels j ≠ [] := by
  obtain ⟨p, hp⟩ := exists_pair_of_mem hlen hj
  have hmem : p ∈ clusterPairs ps labels j :=
    List.mem_map.mpr ⟨(p, j), List.mem_filter.mpr ⟨hp, by simp⟩, rfl⟩
  intro hnil
  rw [hnil] at hmem
  exact absurd hmem (by simp)

theorem clusterCapacityTotal_pos {cells : List Cell} {labels : List ℕ} {j : ℕ}
    (hlen : labels.length = (alignedCells cells).length) (hj : j ∈ labels) :
    0 < clusterCapacityTotal (alignedCells cells) labels j := by
  apply List.sum_pos
  · intro x hx
    obtain ⟨p, hp, rfl⟩ := List.mem_map.mp hx
    exact alignedCells_pos p (mem_of_mem_clusterPairs hp)
  · simp only [ne_eq, List.map_eq_nil]
    exact clusterPairs_ne_nil hlen hj

theorem weighted_avg_bounds {ps : List (ℚ × List ℚ)} (hpos : ∀ p ∈ ps, 0 < p.1)
    (hne : ps ≠ []) (t : ℕ) {lo hi : ℚ}
    (hlo : ∀ p ∈ ps, lo ≤ p.2.getD t 0) (hhi : ∀ p ∈ ps, p.2.getD t 0 ≤ hi) :
    lo ≤ (ps.map fun p => p.1 * p.2.getD t 0).sum / (ps.map Prod.fst).sum ∧
      (ps.map fun p => p.1 * p.2.getD t 0).sum / (ps.map Prod.fst).sum ≤ hi := by
  have hS : 0 < (ps.map Prod.fst).sum := by
    apply List.sum_pos
    · intro x hx
      obtain ⟨p, hp, rfl⟩ := List.mem_map.mp hx
      exact hpos p hp
    · simp only [ne_eq, List.map_eq_nil]
      exact hne
  constructor
  · rw [le_div_iff₀ hS]
    calc lo * (ps.map Prod.fst).sum = (ps.map fun p => lo * p.1).sum := by
          rw [← List.sum_map_mul_left]
      _ ≤ (ps.map fun p => p.1 * p.2.getD t 0).sum := by
          apply List.sum_le_sum
          intro p hp
          rw [mul_comm]
          exact mul_le_mul_of_nonneg_left (hlo p hp) (hpos p hp).le
  · rw [div_le_iff₀ hS]
    calc (ps.map fun p => p.1 * p.2.getD t 0).sum
        ≤ (ps.map fun p => p.1 * hi).sum := by
          apply List.sum_le_sum
          intro p hp
          exact mul_le_mul_of_nonneg_left (hhi p hp) (hpos p hp).le
      _ = hi * (ps.map Prod.fst).sum := by
          rw [← List.sum_map_mul_left]
          simp [mul_comm]

theorem seqOption_all_none {l : List (Option ℚ)} (h : l ≠ []) :
    seqOption (l.map fun _ => none) = none := by
  cases l with
  | nil => exact absurd rfl h
  | cons x xs => rfl

theorem snd_mem_of_mem_enumFrom {α : Type} :
    ∀ {l : List α} {n : ℕ} {p : ℕ × α}, p ∈ l.enumFrom n → p.2 ∈ l := by
  intro l
  induction l with
  | nil => intro n p hp; exact absurd hp (by simp)
  | cons x xs ih =>
    intro n p hp
    rcases List.mem_cons.mp hp with rfl | h
    · exact List.mem_cons_self _ _
    · exact List.mem_cons_of_mem _ (ih h)

instance instDecCleanCapfac (cells : List Cell) : Decidable (CleanCapfac cells) :=
  inferInstanceAs (Decidable (∀ c ∈ cells,
    filteredCapacity c ≠ none → seqOption (filteredCapfac c) ≠ none))

/-! ## C1: simple aggregation -/

/-- Region data refuting C1 as stated: the second cell has positive
capacity but a missing capacity-factor entry at the first time step, so it
is excluded from the claim's filtered cell set yet its capacity is summed
into `capacity_total` by the code. -/
def cellsC1x : List Cell :=
  [⟨true, some 1, [some (1/2), some (1/2)]⟩, ⟨true, some 2, [none, some (1/2)]⟩]

/-- C1 counterexample: a region with a non-empty filtered cell set on
which the returned scalar capacity differs from the sum of the filtered
per-cell capacities (code: `1 + 2 = 3`; claim: `1`). -/
theorem simple_capacity_claim_counterexample :
    alignedCells cellsC1x ≠ [] ∧
      capacityTotal cellsC1x ≠ specFilteredCapacitySum cellsC1x := by
  constructor
  · decide
  · simp [capacityTotal, keptCapacities, specFilteredCapacitySum, alignedCells,
      alignOne, filteredCapacity, filteredCapfac, rasterCapacity, rasterCapfac,
      rasterMask, posTest, seqOption, cellsC1x]

/-- C1 (amended): for every region whose filtered cell set (cells with
`rasters == 1`, strictly positive capacity and no missing values) is
non-empty, and in which additionally no raster-selected positive-capacity
cell has a missing capacity-factor entry, the Simple Aggregator returns
the scalar capacity `C` equal to the sum of the filtered per-cell
capacities, and the returned time series at every time step `t` equals
the sum over filtered cells of `c_i * f_i(t)`, divided by `C`. -/
theorem simple_aggregation_correct (cells : List Cell)
    (hclean : CleanCapfac cells) (hne : alignedCells cells ≠ []) :
    capacityTotal cells = specFilteredCapacitySum cells ∧
      ∀ t, simpleCapfac cells t
        = some (((alignedCells cells).map fun p => p.1 * p.2.getD t 0).sum
            / specFilteredCapacitySum cells) := by
  have h1 : capacityTotal cells = specFilteredCapacitySum cells := by
    unfold capacityTotal specFilteredCapacitySum
    rw [keptCapacities_eq_aligned hclean]
  have hS : 0 < specFilteredCapacitySum cells := by
    apply List.sum_pos
    · intro x hx
      obtain ⟨p, hp, rfl⟩ := List.mem_map.mp hx
      exact alignedCells_pos p hp
    · simp only [ne_eq, List.map_eq_nil]
      exact hne
  refine ⟨h1, fun t => ?_⟩
  unfold simpleCapfac rdiv
  rw [h1, if_neg hS.ne']
  rfl

/-- Region data for the C1 witness: the spec's §8 scenario for region B
(capacities 2 and 3, series `[[0.1, 0.2], [0.3, 0.4]]`). -/
def cellsC1w : List Cell :=
  [⟨true, some 2, [some (1/10), some (1/5)]⟩,
   ⟨true, some 3, [some (3/10), some (2/5)]⟩]

/-- C1 witness: the amended theorem applied to the spec's §8 region B. -/
theorem simple_aggregation_correct_witness :
    CleanCapfac cellsC1w ∧ alignedCells cellsC1w ≠ [] ∧
      (capacityTotal cellsC1w = specFilteredCapacitySum cellsC1w ∧
        ∀ t, simpleCapfac cellsC1w t
          = some (((alignedCells cellsC1w).map fun p => p.1 * p.2.getD t 0).sum
              / specFilteredCapacitySum cellsC1w)) :=
  ⟨by decide, by decide, simple_aggregation_correct cellsC1w (by decide) (by decide)⟩

/-! ## C9: empty filtered cell set -/

/-- C9: for every region whose filtered cell set is empty (the capacity
array survives `dropna` with no cells), the Simple Aggregator returns
capacity `0` and a time series that is NaN at every time step; the
division by the zero total capacity propagates NaN instead of raising. -/
theorem empty_region_nan_propagation (cells : List Cell)
    (h : keptCapacities cells = []) :
    capacityTotal cells = 0 ∧ ∀ t, simpleCapfac cells t = none := by
  have hcap : capacityTotal cells = 0 := by
    unfold capacityTotal
    rw [h]
    rfl
  refine ⟨hcap, fun t => ?_⟩
  unfold simpleCapfac rdiv
  rw [hcap, if_pos rfl]

/-- Region data for the C9 witness: one cell outside the region's raster
mask and one cell with zero capacity — nothing survives filtering. -/
def cellsC9w : List Cell :=
  [⟨false, some 1, [some 1, some 1]⟩, ⟨true, some 0, [some 1, some 1]⟩]

/-- C9 witness: the theorem applied to a region with no surviving cell. -/
theorem empty_region_nan_propagation_witness :
    keptCapacities cellsC9w = [] ∧
      (capacityTotal cellsC9w = 0 ∧ ∀ t, simpleCapfac cellsC9w t = none) :=
  ⟨by decide, empty_region_nan_propagation cellsC9w (by decide)⟩

/-! ## C5: lockstep filtering -/

/-- Region data refuting C5 as stated: one raster-selected cell with
positive capacity whose capacity-factor series has a missing entry. -/
def cellsC5x : List Cell :=
  [⟨true, some 5, [none, some (1/2)]⟩]

/-- C5 counterexample: the capacity array keeps the cell (position `0`)
while the capacity-factor array drops it, so the two post-filter arrays
are indexed by different cell sets. -/
theorem lockstep_filtering_counterexample :
    keptCapacityIndices cellsC5x ≠ keptCapfacIndices cellsC5x := by decide

/-- C5 (amended): the two arrays are filtered in lockstep — both are
indexed by exactly the same set of cells — provided no raster-selected
positive-capacity cell has a missing capacity-factor entry and every
series has at least one time step; a positive-capacity cell with a
missing capacity-factor value is dropped from the capacity-factor array
only. -/
theorem lockstep_filtering_amended (cells : List Cell)
    (hclean : CleanCapfac cells) (hT : ∀ c ∈ cells, c.capfac ≠ []) :
    keptCapacityIndices cells = keptCapfacIndices cells := by
  unfold keptCapacityIndices keptCapfacIndices
  congr 1
  apply List.filter_congr
  intro p hp
  have hpc : p.2 ∈ cells := snd_mem_of_mem_enumFrom hp
  have h1 : (filteredCapacity p.2).isSome → (seqOption (filteredCapfac p.2)).isSome := by
    intro hs
    exact Option.ne_none_iff_isSome.mp
      (hclean p.2 hpc (Option.ne_none_iff_isSome.mpr hs))
  have h2 : (seqOption (filteredCapfac p.2)).isSome → (filteredCapacity p.2).isSome := by
    intro hs
    by_cases hpos : posTest (rasterCapacity p.2)
    · unfold filteredCapacity
      rw [if_pos hpos]
      cases hr : rasterCapacity p.2 with
      | none => rw [hr] at hpos; exact absurd hpos (by simp [posTest])
      | some q => simp
    · unfold filteredCapfac at hs
      rw [if_neg hpos, seqOption_all_none (hT p.2 hpc)] at hs
      exact absurd hs (by simp)
  cases ha : (filteredCapacity p.2).isSome <;>
    cases hb : (seqOption (filteredCapfac p.2)).isSome <;> simp_all

/-- Region data for the C5 witness: a clean region mixing surviving and
dropped cells. -/
def cellsC5w : List Cell :=
  [⟨true, some 1, [some 1, some 0]⟩, ⟨false, some 1, [some 1, some 1]⟩,
   ⟨true, some 0, [some 1, some 1]⟩]

/-- C5 witness: the amended theorem applied to the clean region. -/
theorem lockstep_filtering_amended_witness :
    CleanCapfac cellsC5w ∧ (∀ c ∈ cellsC5w, c.capfac ≠ []) ∧
      keptCapacityIndices cellsC5w = keptCapfacIndices cellsC5w :=
  ⟨by decide, by decide, lockstep_filtering_amended cellsC5w (by decide) (by decide)⟩

/-! ## C2, C3, C4: cluster-mode conservation and K = 1 equivalence

The label vector produced by `AgglomerativeClustering(n_clusters=K).fit`
assigns each surviving cell exactly one label, the labels are drawn from
`0 .. K-1`, and every one of the `K` labels is populated (the dendrogram
is cut into exactly `K` non-empty clusters); the theorems take the label
vector together with these contract facts as hypotheses. -/

theorem clusterCapacityTotal_eq (ps : List (ℚ × List ℚ)) (labels : List ℕ) (i : ℕ) :
    clusterCapacityTotal ps labels i
      = (((ps.zip labels).filter fun pl => pl.2 == i).map fun pl => Prod.fst pl.1).sum := by
  unfold clusterCapacityTotal clusterPairs
  rw [List.map_map]
  rfl

theorem clusterPowerTotal_eq (ps : List (ℚ × List ℚ)) (labels : List ℕ) (i t : ℕ) :
    clusterPowerTotal ps labels i t
      = (((ps.zip labels).filter fun pl => pl.2 == i).map
          fun pl => pl.1.1 * pl.1.2.getD t 0).sum := by
  unfold clusterPowerTotal clusterPairs
  rw [List.map_map]
  rfl

theorem zip_labels_lt {ps : List (ℚ × List ℚ)} {labels : List ℕ} {K : ℕ}
    (hmem : ∀ l ∈ labels, l < K) :
    ∀ x ∈ ps.zip labels, x.2 < K := by
  intro x hx
  obtain ⟨a, b⟩ := x
  exact hmem b (List.mem_zip hx).2

/-- C2: with each surviving cell assigned exactly one label in `[0, K)`
and every label populated, the sum over the `K` per-cluster output
capacities equals the sum of all filtered per-cell capacities of the
region. -/
theorem cluster_capacity_conservation (cells : List Cell) (K : ℕ) (labels : List ℕ)
    (hclean : CleanCapfac cells)
    (hlen : labels.length = (alignedCells cells).length)
    (hmem : ∀ l ∈ labels, l < K)
    (hsurj : ∀ j, j < K → j ∈ labels) :
    (repClusterCapacities (alignedCells cells) labels K).sum = capacityTotal cells := by
  have hK : nUniqueLabels labels = K := nUniqueLabels_eq hmem hsurj
  have hslot : ∀ i ∈ List.range K,
      clusterSlotCapacity (alignedCells cells) labels i
        = clusterCapacityTotal (alignedCells cells) labels i := by
    intro i hi
    unfold clusterSlotCapacity
    rw [hK, if_pos (List.mem_range.mp hi)]
  unfold repClusterCapacities
  rw [List.map_congr_left hslot, list_range_map_sum]
  calc ∑ i in Finset.range K, clusterCapacityTotal (alignedCells cells) labels i
      = ∑ i in Finset.range K,
          ((((alignedCells cells).zip labels).filter fun pl => pl.2 == i).map
            fun pl => Prod.fst pl.1).sum :=
        Finset.sum_congr rfl fun i _ => clusterCapacityTotal_eq _ _ i
    _ = (((alignedCells cells).zip labels).map fun pl => Prod.fst pl.1).sum :=
        sum_filter_label _ K Prod.fst (zip_labels_lt hmem)
    _ = ((alignedCells cells).map Prod.fst).sum := by
        have : (((alignedCells cells).zip labels).map fun pl => Prod.fst pl.1)
            = (((alignedCells cells).zip labels).map Prod.fst).map Prod.fst := by
          rw [List.map_map]
          rfl
        rw [this, List.map_fst_zip _ _ (le_of_eq hlen.symm)]
    _ = capacityTotal cells := by
        unfold capacityTotal
        rw [keptCapacities_eq_aligned hclean]

/-- Region data for the C2 witness: spec §8 scenario 8 — region A's four
unit-capacity cells with identical series, split into two clusters. -/
def cellsC2w : List Cell :=
  [⟨true, some 1, [some (1/2), some (1/2)]⟩, ⟨true, some 1, [some (1/2), some (1/2)]⟩,
   ⟨true, some 1, [some (1/2), some (1/2)]⟩, ⟨true, some 1, [some (1/2), some (1/2)]⟩]

/-- C2 witness: capacity conservation at a concrete clustered region. -/
theorem cluster_capacity_conservation_witness :
    CleanCapfac cellsC2w ∧
      (repClusterCapacities (alignedCells cellsC2w) [0, 1, 0, 1] 2).sum
        = capacityTotal cellsC2w :=
  ⟨by decide,
    cluster_capacity_conservation cellsC2w 2 [0, 1, 0, 1] (by decide) (by decide)
      (by decide) (by decide)⟩

/-- C3: with the same labelling hypotheses, at every time step the sum
over the `K` clusters of (cluster output capacity × cluster output
capacity factor) equals the sum over all filtered cells of (cell capacity
× cell capacity factor); moreover no cluster slot holds a NaN. -/
theorem cluster_power_conservation (cells : List Cell) (K : ℕ) (labels : List ℕ)
    (hclean : CleanCapfac cells)
    (hlen : labels.length = (alignedCells cells).length)
    (hmem : ∀ l ∈ labels, l < K)
    (hsurj : ∀ j, j < K → j ∈ labels) (t : ℕ) :
    ((List.range K).map fun i =>
        clusterSlotCapacity (alignedCells cells) labels i
          * (clusterSlotCapfac (alignedCells cells) labels i t).getD 0).sum
      = powerTotal cells t
    ∧ ∀ i, i < K → (clusterSlotCapfac (alignedCells cells) labels i t).isSome := by
  have hK : nUniqueLabels labels = K := nUniqueLabels_eq hmem hsurj
  have hCpos : ∀ i, i < K → 0 < clusterCapacityTotal (alignedCells cells) labels i :=
    fun i hi => clusterCapacityTotal_pos hlen (hsurj i hi)
  have hsome : ∀ i, i < K → (clusterSlotCapfac (alignedCells cells) labels i t).isSome := by
    intro i hi
    unfold clusterSlotCapfac
    rw [hK, if_pos hi]
    unfold rdiv
    rw [if_neg (hCpos i hi).ne']
    rfl
  refine ⟨?_, hsome⟩
  have hslot : ∀ i ∈ List.range K,
      clusterSlotCapacity (alignedCells cells) labels i
          * (clusterSlotCapfac (alignedCells cells) labels i t).getD 0
        = clusterPowerTotal (alignedCells cells) labels i t := by
    intro i hi
    have hiK := List.mem_range.mp hi
    unfold clusterSlotCapacity clusterSlotCapfac
    rw [hK, if_pos hiK, if_pos hiK]
    unfold rdiv
    rw [if_neg (hCpos i hiK).ne']
    show clusterCapacityTotal (alignedCells cells) labels i
        * (clusterPowerTotal (alignedCells cells) labels i t
            / clusterCapacityTotal (alignedCells cells) labels i)
      = clusterPowerTotal (alignedCells cells) labels i t
    rw [mul_comm, div_mul_cancel₀ _ (hCpos i hiK).ne']
  rw [List.map_congr_left hslot, list_range_map_sum]
  calc ∑ i in Finset.range K, clusterPowerTotal (alignedCells cells) labels i t
      = ∑ i in Finset.range K,
          ((((alignedCells cells).zip labels).filter fun pl => pl.2 == i).map
            fun pl => pl.1.1 * pl.1.2.getD t 0).sum :=
        Finset.sum_congr rfl fun i _ => clusterPowerTotal_eq _ _ i t
    _ = (((alignedCells cells).zip labels).map fun pl => pl.1.1 * pl.1.2.getD t 0).sum :=
        sum_filter_label _ K (fun p => p.1 * p.2.getD t 0) (zip_labels_lt hmem)
    _ = powerTotal cells t := by
        have : (((alignedCells cells).zip labels).map fun pl => pl.1.1 * pl.1.2.getD t 0)
            = (((alignedCells cells).zip labels).map Prod.fst).map
                fun p => p.1 * p.2.getD t 0 := by
          rw [List.map_map]
          rfl
        rw [this, List.map_fst_zip _ _ (le_of_eq hlen.symm)]
        rfl

/-- Region data for the C3 witness: two clusters with unequal capacities
and series. -/
def cellsC3w : List Cell :=
  [⟨true, some 2, [some (1/10), some (1/5)]⟩, ⟨true, some 3, [some (3/10), some (2/5)]⟩]

/-- C3 witness: power conservation at a concrete clustered region. -/
theorem cluster_power_conservation_witness :
    CleanCapfac cellsC3w ∧
      (((List.range 2).map fun i =>
          clusterSlotCapacity (alignedCells cellsC3w) [1, 0] i
            * (clusterSlotCapfac (alignedCells cellsC3w) [1, 0] i 1).getD 0).sum
        = powerTotal cellsC3w 1
      ∧ ∀ i, i < 2 → (clusterSlotCapfac (alignedCells cellsC3w) [1, 0] i 1).isSome) :=
  ⟨by decide,
    cluster_power_conservation cellsC3w 2 [1, 0] (by decide) (by decide) (by decide)
      (by decide) 1⟩

/-- C4: for a region with a non-empty filtered cell set, running the
Cluster Aggregator with `K = 1` (the clusterer then assigns every
surviving cell the label `0`) produces the same capacity and the same
time series as the Simple Aggregator. -/
theorem cluster_k1_equiv_simple (cells : List Cell) (labels : List ℕ)
    (hclean : CleanCapfac cells) (hne : alignedCells cells ≠ [])
    (hlen : labels.length = (alignedCells cells).length)
    (hall : ∀ l ∈ labels, l = 0) :
    clusterSlotCapacity (alignedCells cells) labels 0 = capacityTotal cells ∧
      ∀ t, clusterSlotCapfac (alignedCells cells) labels 0 t = simpleCapfac cells t := by
  have hlabne : labels ≠ [] := by
    intro h0
    rw [h0] at hlen
    exact hne (List.length_eq_zero.mp hlen.symm)
  have h0mem : (0 : ℕ) ∈ labels := by
    obtain ⟨l, hl⟩ := List.exists_mem_of_ne_nil labels hlabne
    exact hall l hl ▸ hl
  have hK : nUniqueLabels labels = 1 :=
    nUniqueLabels_eq (fun l hl => by rw [hall l hl]; exact Nat.zero_lt_one)
      (fun j hj => Nat.lt_one_iff.mp hj ▸ h0mem)
  have hpairs : clusterPairs (alignedCells cells) labels 0 = alignedCells cells := by
    unfold clusterPairs
    rw [List.filter_eq_self.mpr ?_, List.map_fst_zip _ _ (le_of_eq hlen.symm)]
    intro pl hpl
    obtain ⟨a, b⟩ := pl
    have hb : b ∈ labels := (List.mem_zip hpl).2
    simp [hall b hb]
  constructor
  · unfold clusterSlotCapacity
    rw [hK, if_pos Nat.zero_lt_one]
    unfold clusterCapacityTotal
    rw [hpairs]
    unfold capacityTotal
    rw [keptCapacities_eq_aligned hclean]
  · intro t
    unfold clusterSlotCapfac
    rw [hK, if_pos Nat.zero_lt_one]
    unfold clusterPowerTotal clusterCapacityTotal
    rw [hpairs]
    unfold simpleCapfac powerTotal capacityTotal
    rw [keptCapacities_eq_aligned hclean]

/-- Region data for the C4 witness: spec §8 region B. -/
def cellsC4w : List Cell :=
  [⟨true, some 2, [some (1/10), some (1/5)]⟩, ⟨true, some 3, [some (3/10), some (2/5)]⟩]

/-- C4 witness: `K = 1` clustering agrees with simple aggregation on a
concrete region. -/
theorem cluster_k1_equiv_simple_witness :
    CleanCapfac cellsC4w ∧ alignedCells cellsC4w ≠ [] ∧
      (clusterSlotCapacity (alignedCells cellsC4w) [0, 0] 0 = capacityTotal cellsC4w ∧
        ∀ t, clusterSlotCapfac (alignedCells cellsC4w) [0, 0] 0 t
          = simpleCapfac cellsC4w t) :=
  ⟨by decide, by decide,
    cluster_k1_equiv_simple cellsC4w [0, 0] (by decide) (by decide) (by decide)
      (by decide)⟩

/-! ## C6: cluster-count validation -/

/-- C6 counterexample: with a region of `2` surviving cells, a requested
cluster count of `5` (exceeding the cell count), of `0` and of `-3`
(non-positive) all still dispatch the cluster worker and reach the
clustering call — no rejection happens before clustering is attempted,
and the code defines no ClusterCountError. -/
theorem cluster_count_guard_counterexample :
    clusteringAttempted 5 2 = true ∧ clusteringAttempted 0 2 = true ∧
      clusteringAttempted (-3) 2 = true := by decide

/-- C6 (amended): `represent_RE_technology` performs no upfront
cluster-count validation: for every `n_timeSeries_perRegion` other than
`1` — including non-positive values and values exceeding the region's
surviving cell count — the cluster worker is dispatched and clustering is
attempted, whatever the number of surviving cells; any failure surfaces
from the clustering library, not as a ClusterCountError raised
beforehand. -/
theorem cluster_count_unguarded (n : ℤ) (nCells : ℕ) :
    clusteringAttempted n nCells = true ↔ n ≠ 1 := by
  unfold clusteringAttempted regionStrategy
  by_cases h : n = 1 <;> simp [h]

/-! ## C7: region completeness of the merged output -/

/-- C7: the set of region id coordinates of the merged output dataset
equals exactly the set of region ids of the rasterized input: every
submitted region appears, none is dropped, and none appears more than
once. -/
theorem region_completeness (region_ids : List String) :
    (∀ r, r ∈ representedRegionIds region_ids ↔ r ∈ region_ids) ∧
      (representedRegionIds region_ids).Nodup := by
  have hflat : (region_ids.map fun r => [r]).flatten = region_ids := by
    induction region_ids with
    | nil => rfl
    | cons x xs ih => simp [ih]
  unfold representedRegionIds mergedRegionIds
  rw [hflat]
  exact ⟨fun r => List.mem_dedup, List.nodup_dedup _⟩

/-! ## C8: merge is order-independent -/

theorem mergeFragments_eq_some_iff (r : String) (f : RegionFragment) :
    ∀ {frags : List (String × RegionFragment)}, (frags.map Prod.fst).Nodup →
      (mergeFragments frags r = some f ↔ (r, f) ∈ frags) := by
  intro frags
  induction frags with
  | nil => intro _; simp [mergeFragments]
  | cons p l ih =>
    intro hnd
    rw [List.map_cons, List.nodup_cons] at hnd
    obtain ⟨hp, hl⟩ := hnd
    by_cases hpr : p.1 = r
    · have hfind : mergeFragments (p :: l) r = some p.2 := by
        unfold mergeFragments
        rw [List.find?_cons_of_pos _ (by simp [hpr])]
        rfl
      rw [hfind]
      constructor
      · intro h
        have h2 : p.2 = f := by injection h
        exact List.mem_cons.mpr (Or.inl (by rw [← h2, ← hpr]))
      · intro h
        rcases List.mem_cons.mp h with heq | hmem
        · exact congrArg (fun x => some x.2) heq.symm
        · exact absurd (List.mem_map_of_mem Prod.fst hmem) (hpr ▸ hp)
    · have hfind : mergeFragments (p :: l) r = mergeFragments l r := by
        unfold mergeFragments
        rw [List.find?_cons_of_neg _ (by simp [hpr])]
      rw [hfind, ih hl]
      constructor
      · exact fun h => List.mem_cons_of_mem _ h
      · intro h
        rcases List.mem_cons.mp h with heq | hmem
        · exact absurd (congrArg Prod.fst heq.symm) hpr
        · exact hmem

theorem mergeFragments_eq_none_iff (r : String)
    (frags : List (String × RegionFragment)) :
    mergeFragments frags r = none ↔ ∀ f, (r, f) ∉ frags := by
  unfold mergeFragments
  rw [Option.map_eq_none', List.find?_eq_none]
  constructor
  · intro h f hf
    have := h (r, f) hf
    simp at this
  · intro h x hx
    obtain ⟨a, b⟩ := x
    intro hbeq
    have ha : a = r := by simpa using hbeq
    subst ha
    exact h b hx

/-- C8: the merged output is independent of the order in which per-region
fragments are combined — merging any permutation of the same fragments,
keyed by region identity, yields the same dataset. -/
theorem merge_order_independent (frags frags' : List (String × RegionFragment))
    (hperm : frags.Perm frags') (hnd : (frags.map Prod.fst).Nodup) :
    mergeFragments frags = mergeFragments frags' := by
  have hnd' : (frags'.map Prod.fst).Nodup := ((hperm.map Prod.fst).nodup_iff).mp hnd
  funext r
  cases h : mergeFragments frags' r with
  | none =>
    rw [mergeFragments_eq_none_iff] at h ⊢
    exact fun f hf => h f (hperm.mem_iff.mp hf)
  | some f =>
    have hf : (r, f) ∈ frags' := (mergeFragments_eq_some_iff r f hnd').mp h
    exact (mergeFragments_eq_some_iff r f hnd).mpr (hperm.mem_iff.mpr hf)

/-- Fragments for the C8 witness, in completion order A then B. -/
def fragsC8 : List (String × RegionFragment) :=
  [("01_reg", ⟨[4], [[some 1, some 0]]⟩), ("02_reg", ⟨[5], [[some 0, some 1]]⟩)]

/-- The same fragments, completed in the opposite order. -/
def fragsC8rev : List (String × RegionFragment) :=
  [("02_reg", ⟨[5], [[some 0, some 1]]⟩), ("01_reg", ⟨[4], [[some 1, some 0]]⟩)]

/-- C8 witness: the two completion orders merge to the same dataset. -/
theorem merge_order_independent_witness :
    mergeFragments fragsC8 = mergeFragments fragsC8rev :=
  merge_order_independent fragsC8 fragsC8rev (by decide) (by decide)

/-! ## C10: the aggregated capacity factor is a convex combination -/

/-- Region data refuting C10 as stated: the second cell has positive
capacity but a missing capacity-factor entry at time step `0`, so its
capacity is summed into `capacity_total` while the power sum (inner-join
alignment) excludes the whole cell. -/
def cellsC10x : List Cell :=
  [⟨true, some 1, [some 1, some 1]⟩, ⟨true, some 2, [none, some 1]⟩]

/-- C10 counterexample: a region with a non-empty filtered cell set on
which every cell's capacity factor at time step `1` equals `1` (so the
minimum and maximum per-cell capacity factor at that step are both `1`,
under either reading of "surviving"), yet the aggregated capacity factor
at that step is `1/3 = (1 * 1)/(1 + 2)`, strictly below the minimum: the
aggregate is not a convex combination of the surviving cells' capacity
factors. -/
theorem aggregated_capfac_convex_counterexample :
    alignedCells cellsC10x ≠ [] ∧
      (∀ c ∈ cellsC10x, c.capfac.getD 1 none = some 1) ∧
      simpleCapfac cellsC10x 1 = some (1/3) ∧ ¬ (1 : ℚ) ≤ 1/3 := by
  refine ⟨by decide, by decide, ?_, by norm_num⟩
  simp [simpleCapfac, rdiv, powerTotal, capacityTotal, keptCapacities, alignedCells,
    alignOne, filteredCapacity, filteredCapfac, rasterCapacity, rasterCapfac,
    rasterMask, posTest, seqOption, cellsC10x]
  norm_num

/-- C10 (amended): for a region with a non-empty filtered cell set (all
surviving cells have strictly positive capacity), in which additionally
no raster-selected positive-capacity cell has a missing capacity-factor
entry, the aggregated capacity factor at each time step lies between any
lower bound and any upper bound of the surviving cells' capacity factors
at that step — in particular between their minimum and maximum, and
inside `[0, 1]` whenever all inputs are; the same holds for every cluster
slot in cluster mode. -/
theorem aggregated_capfac_convex (cells : List Cell) (t : ℕ) (lo hi : ℚ)
    (hclean : CleanCapfac cells) (hne : alignedCells cells ≠ [])
    (hlo : ∀ p ∈ alignedCells cells, lo ≤ p.2.getD t 0)
    (hhi : ∀ p ∈ alignedCells cells, p.2.getD t 0 ≤ hi) :
    (∃ q, simpleCapfac cells t = some q ∧ lo ≤ q ∧ q ≤ hi) ∧
      ∀ K labels, labels.length = (alignedCells cells).length →
        (∀ l ∈ labels, l < K) → (∀ j, j < K → j ∈ labels) →
          ∀ i, i < K →
            ∃ q, clusterSlotCapfac (alignedCells cells) labels i t = some q
              ∧ lo ≤ q ∧ q ≤ hi := by
  have hS : 0 < ((alignedCells cells).map Prod.fst).sum := by
    apply List.sum_pos
    · intro x hx
      obtain ⟨p, hp, rfl⟩ := List.mem_map.mp hx
      exact alignedCells_pos p hp
    · simp only [ne_eq, List.map_eq_nil]
      exact hne
  constructor
  · have hb := weighted_avg_bounds alignedCells_pos hne t hlo hhi
    refine ⟨_, ?_, hb.1, hb.2⟩
    unfold simpleCapfac rdiv powerTotal capacityTotal
    rw [keptCapacities_eq_aligned hclean, if_neg hS.ne']
  · intro K labels hlen hmem hsurj i hiK
    have hK : nUniqueLabels labels = K := nUniqueLabels_eq hmem hsurj
    have hone : clusterPairs (alignedCells cells) labels i ≠ [] :=
      clusterPairs_ne_nil hlen (hsurj i hiK)
    have hpos' : ∀ p ∈ clusterPairs (alignedCells cells) labels i, 0 < p.1 :=
      fun p hp => alignedCells_pos p (mem_of_mem_clusterPairs hp)
    have hlo' : ∀ p ∈ clusterPairs (alignedCells cells) labels i, lo ≤ p.2.getD t 0 :=
      fun p hp => hlo p (mem_of_mem_clusterPairs hp)
    have hhi' : ∀ p ∈ clusterPairs (alignedCells cells) labels i, p.2.getD t 0 ≤ hi :=
      fun p hp => hhi p (mem_of_mem_clusterPairs hp)
    have hb := weighted_avg_bounds hpos' hone t hlo' hhi'
    have hC : 0 < clusterCapacityTotal (alignedCells cells) labels i :=
      clusterCapacityTotal_pos hlen (hsurj i hiK)
    refine ⟨_, ?_, hb.1, hb.2⟩
    unfold clusterSlotCapfac
    rw [hK, if_pos hiK]
    unfold rdiv
    rw [if_neg hC.ne']
    rfl

/-- Region data for the C10 witness. -/
def cellsC10w : List Cell :=
  [⟨true, some 2, [some 0, some 1]⟩, ⟨true, some 3, [some 1, some 0]⟩]

/-- C10 witness: the aggregated capacity factor of a concrete region lies
in `[0, 1]` when all input capacity factors do, in both modes. -/
theorem aggregated_capfac_convex_witness :
    CleanCapfac cellsC10w ∧ alignedCells cellsC10w ≠ [] ∧
      ((∃ q, simpleCapfac cellsC10w 0 = some q ∧ 0 ≤ q ∧ q ≤ 1) ∧
        ∀ K labels, labels.length = (alignedCells cellsC10w).length →
          (∀ l ∈ labels, l < K) → (∀ j, j < K → j ∈ labels) →
            ∀ i, i < K →
              ∃ q, clusterSlotCapfac (alignedCells cellsC10w) labels i 0 = some q
                ∧ 0 ≤ q ∧ q ≤ 1) :=
  ⟨by decide, by decide,
    aggregated_capfac_convex cellsC10w 0 0 1 (by decide) (by decide)
      (by decide) (by decide)⟩

end FineRE
